import Mathlib

/-!
Verification of the lyric transcription pipelines (`transcribe.py` and
`transcribe_v2.py`).

Timestamps are modelled as exact rationals (`ℚ`); Python's `round(x, 2)` is
modelled as exact rational rounding to centiseconds (`round2`).  Python lists
mutated in place by index loops are rendered as structurally recursive
functions returning the new list; each definition mirrors the loop of the
source line by line.
-/

namespace Transcribe

/-- Python `round(x, 2)`: round to 2 decimal places (half rounds up; the
claims never evaluate it at an exact half-cent, where binary floats may
round to even instead). -/
def round2 (q : ℚ) : ℚ := (⌊q * 100 + 1/2⌋ : ℚ) / 100

/-- Python `str.strip()`: drop whitespace at both ends. -/
def pyStrip (s : String) : String :=
  String.mk (((s.toList.dropWhile Char.isWhitespace).reverse.dropWhile
    Char.isWhitespace).reverse)

/-- Worker for `pySplit`: split a character list on whitespace runs,
discarding empty chunks, the accumulator holding the current chunk
reversed. -/
def splitAux : List Char → List Char → List (List Char)
  | [], acc => if acc.isEmpty then [] else [acc.reverse]
  | c :: cs, acc =>
    if c.isWhitespace then
      if acc.isEmpty then splitAux cs [] else acc.reverse :: splitAux cs []
    else splitAux cs (c :: acc)

/-- Python `str.split()` with no argument: split on whitespace runs,
no empty chunks. -/
def pySplit (s : String) : List String := (splitAux s.toList []).map String.mk

/-- A word observation from the alignment collaborator: `word_obj` with
`word`, `start` and `end` (named `stop` here, `end` being a Lean keyword). -/
structure RawWord where
  word : String
  start : ℚ
  stop : ℚ
  deriving DecidableEq, Repr

/-- An entry of `all_aligned_words` (transcribe_v2.py lines 90-99): stripped
non-empty text with start and end rounded to 2 decimals. -/
structure AlignedWord where
  word : String
  start : ℚ
  stop : ℚ
  deriving DecidableEq, Repr

/-- A record of the `words` list (word, time, line). -/
structure WordRecord where
  word : String
  time : ℚ
  line : ℕ
  deriving DecidableEq, Repr

/-- Default record for positional (`getD`) access in statements. -/
def dfltRec : WordRecord := ⟨"", 0, 0⟩

/-- Default aligned word for positional access in statements. -/
def dfltAligned : AlignedWord := ⟨"", 0, 0⟩

/-- transcribe_v2.py lines 90-99: flatten the alignment result into
`all_aligned_words`, keeping each stripped non-empty word with its start and
end rounded to 2 decimals. -/
def extractAligned (raw : List RawWord) : List AlignedWord :=
  raw.filterMap fun o =>
    let w := pyStrip o.word
    if w = "" then none else some ⟨w, round2 o.start, round2 o.stop⟩

/-- The expected words of the ground-truth lines, each paired with its line
number: the pairs `(expected_word, line_num)` visited by the two nested
loops of transcribe_v2.py lines 106-108. -/
def expandLines (lines : List String) : List (String × ℕ) :=
  (lines.enum.map fun p => (pySplit p.2).map fun w => (w, p.1)).flatten

/-- The word-mapping loop of transcribe_v2.py lines 104-123.  The source
walks `all_aligned_words` with an index `idx` that advances exactly when an
aligned word is consumed, so the walk is rendered as structural consumption
of the aligned list; `prev` carries `words[-1]["time"]` (the time of the
last appended record), `none` while `words` is still empty. -/
def mapGo : List AlignedWord → Option ℚ → List (String × ℕ) → List WordRecord
  | _, _, [] => []
  | a :: rest, _, (w, ln) :: ps => ⟨w, a.start, ln⟩ :: mapGo rest (some a.start) ps
  | [], prev, (w, ln) :: ps =>
    let lastT : ℚ := match prev with | some p => p + 0.3 | none => 0
    let t := round2 lastT
    ⟨w, t, ln⟩ :: mapGo [] (some t) ps

/-- The Word Mapper: one WordRecord per expected word, timestamps taken from
the aligned observations in order, synthesized past their end. -/
def mapWords (lines : List String) (aligned : List AlignedWord) : List WordRecord :=
  mapGo aligned none (expandLines lines)

/-- One comparison of `fix_timestamps` (transcribe_v2.py lines 135-155):
the possibly fixed record at position `i` and how many fixes were applied
(0 or 1), given the record at `i-1` as already processed. -/
def fixPair (prev cur : WordRecord) : WordRecord × ℕ :=
  if cur.line = prev.line then
    if cur.time < prev.time ∨ 4.0 < cur.time - prev.time then
      ({ cur with time := round2 (prev.time + 0.28) }, 1)
    else (cur, 0)
  else
    if cur.time < prev.time then
      ({ cur with time := round2 (prev.time + 0.6) }, 1)
    else if 10.0 < cur.time - prev.time then
      ({ cur with time := round2 (prev.time + 2.0) }, 1)
    else (cur, 0)

/-- The left-to-right sweep of `fix_timestamps`: each position is compared
to the (possibly already fixed) previous record. -/
def fixGo : WordRecord → List WordRecord → List WordRecord × ℕ
  | _, [] => ([], 0)
  | prev, cur :: rest =>
    let pc := fixPair prev cur
    let pr := fixGo pc.1 rest
    (pc.1 :: pr.1, pc.2 + pr.2)

/-- `fix_timestamps` (transcribe_v2.py lines 131-157): one full repair pass;
returns the repaired list and the number of fixes applied.  Position 0 is
never touched (the source loop starts at `i = 1`). -/
def fix_timestamps : List WordRecord → List WordRecord × ℕ
  | [] => ([], 0)
  | w :: ws =>
    let pr := fixGo w ws
    (w :: pr.1, pr.2)

/-- The module-level repair loop (transcribe_v2.py lines 160-165) with `k`
passes remaining: run `fix_timestamps`, stop at the first pass that fixes
nothing; returns the final list and `total_fixed`. -/
def repairGo : ℕ → List WordRecord → List WordRecord × ℕ
  | 0, ws => (ws, 0)
  | k + 1, ws =>
    let pr := fix_timestamps ws
    if pr.2 = 0 then (pr.1, 0)
    else
      let r := repairGo k pr.1
      (r.1, pr.2 + r.2)

/-- The repair loop as run by the source: `for pass_num in range(5)`. -/
def repair (ws : List WordRecord) : List WordRecord × ℕ := repairGo 5 ws

/-- The guided pipeline up to its `words` list: extraction, word mapping,
repair; returns the final records and the total fix count. -/
def guidedWords (lines : List String) (raw : List RawWord) : List WordRecord × ℕ :=
  repair (mapWords lines (extractAligned raw))

/-- The adjacency bound checked by one comparison of `fix_timestamps`: the
exact negation of its anomaly conditions (a gap of exactly 4.0 on the same
line, or exactly 10.0 across lines, is not an anomaly). -/
def adjOk (prev cur : WordRecord) : Prop :=
  if cur.line = prev.line then
    prev.time ≤ cur.time ∧ cur.time - prev.time ≤ 4.0
  else
    prev.time ≤ cur.time ∧ cur.time - prev.time ≤ 10.0

instance adjOkDecidable (prev cur : WordRecord) : Decidable (adjOk prev cur) := by
  unfold adjOk
  infer_instance

/-- A concrete already-converged sequence. -/
def c1List : List WordRecord := [⟨"a", 0, 0⟩, ⟨"b", 0.28, 0⟩, ⟨"c", 5.6, 1⟩]

/-- A concrete already-converged sequence. -/
def c7List : List WordRecord := [⟨"x", 1, 0⟩, ⟨"y", 2, 0⟩]

/-- The word and line fields of a record, the part `fix_timestamps` must not
touch. -/
def proj (r : WordRecord) : String × ℕ := (r.word, r.line)

/-- The ground-truth lines of the spec's end-to-end example. -/
def exLines : List String := ["hello world", "goodbye now"]

/-- The collaborator observations of the spec's end-to-end example. -/
def exRaw : List RawWord :=
  [⟨"hello", 0, 0.4⟩, ⟨"world", 5.2, 5.5⟩, ⟨"goodbye", 5.6, 6⟩, ⟨"now", 6.1, 6.4⟩]

/-- The final words the spec's example claims (with "world" at 0.68). -/
def exClaimed : List WordRecord :=
  [⟨"hello", 0, 0⟩, ⟨"world", 0.68, 0⟩, ⟨"goodbye", 5.6, 1⟩, ⟨"now", 6.1, 1⟩]

/-- The final words the code actually produces: the repairer sets the fixed
time to the previous record's `time` (the previous word's start, 0.00) plus
0.28, not to the previous word's end. -/
def exActual : List WordRecord :=
  [⟨"hello", 0, 0⟩, ⟨"world", 0.28, 0⟩, ⟨"goodbye", 5.6, 1⟩, ⟨"now", 6.1, 1⟩]

/-- A collaborator segment (free-transcription pipeline): integer id and its
word observations. -/
structure Segment where
  id : ℤ
  words : List RawWord

/-- A staged word dict of transcribe.py lines 56-61, with the scratch `_end`
key (`Option` models the dict key; the source always sets it). -/
structure TmpRecord where
  word : String
  time : ℚ
  line : ℕ
  endT : Option ℚ
  deriving DecidableEq, Repr

/-- `words[-1].get("_end", words[-1]["time"] + 0.3)` (transcribe.py line 52). -/
def effEnd (r : TmpRecord) : ℚ := r.endT.getD (r.time + 0.3)

/-- The segmentation loop state: the staged `words`, `line_idx`, `prev_seg`. -/
structure SegState where
  words : List TmpRecord
  lineIdx : ℕ
  prevSeg : ℤ
  deriving DecidableEq, Repr

/-- `words = []`, `line_idx = 0`, `prev_seg = -1` (transcribe.py 39-41). -/
def initSegState : SegState := ⟨[], 0, -1⟩

/-- One iteration of the segmentation loop (transcribe.py lines 43-62) on a
word of the segment with id `segId`: skip blank words, else maybe increment
the line counter and append the staged record, updating `prev_seg`. -/
def segStep (st : SegState) (segId : ℤ) (w : RawWord) : SegState :=
  let wt := pyStrip w.word
  if wt = "" then st
  else
    let t := round2 w.start
    let li :=
      match st.words.getLast? with
      | some prev =>
        if segId ≠ st.prevSeg then
          if 0.8 < t - effEnd prev then st.lineIdx + 1 else st.lineIdx
        else st.lineIdx
      | none => st.lineIdx
    ⟨st.words ++ [⟨wt, t, li, some (round2 w.stop)⟩], li, segId⟩

/-- The full segmentation loop over all segments. -/
def segRun (segs : List Segment) : SegState :=
  segs.foldl (fun st seg => seg.words.foldl (fun st2 w => segStep st2 seg.id w) st)
    initSegState

/-- Lines 64-66: the scratch `_end` field is deleted. -/
def stripEnd (r : TmpRecord) : WordRecord := ⟨r.word, r.time, r.line⟩

/-- The Line Segmenter's output `words`. -/
def segment_words (segs : List Segment) : List WordRecord :=
  (segRun segs).words.map stripEnd

/-- A section label anchor. -/
structure LyricSection where
  time : ℚ
  label : String
  deriving DecidableEq, Repr

/-- `lines.setdefault(w["line"], []).append(w["word"])` (transcribe.py line
71): append the word to its line's entry, else push a new entry at the end
(Python dict insertion order). -/
def addWord : List (ℕ × List String) → ℕ → String → List (ℕ × List String)
  | [], ln, w => [(ln, [w])]
  | (k, ws) :: rest, ln, w =>
    if k = ln then (k, ws ++ [w]) :: rest else (k, ws) :: addWord rest ln w

/-- transcribe.py lines 69-71: group the words' texts by line index. -/
def groupLines (words : List WordRecord) : List (ℕ × List String) :=
  words.foldl (fun acc w => addWord acc w.line w.word) []

/-- transcribe.py line 72: space-join each group. -/
def line_texts_free (words : List WordRecord) : List (ℕ × String) :=
  (groupLines words).map fun p => (p.1, String.intercalate " " p.2)

/-- The output document: words, line mapping, optional sections, counts. -/
structure OutputDoc where
  words : List WordRecord
  lines : List (ℕ × String)
  sections : Option (List LyricSection)
  totalWords : ℕ
  totalLines : ℕ
  deriving Repr

/-- transcribe.py lines 74-79: the free-transcription Output Assembler. -/
def assemble_free (words : List WordRecord) : OutputDoc :=
  ⟨words, line_texts_free words, none, words.length, (line_texts_free words).length⟩

/-- The hardcoded section-label table (transcribe_v2.py lines 170-176), as
the association list the dict holds. -/
def section_map : List (ℕ × String) :=
  [(0, "Verse 1"), (8, "Pre-Chorus"), (10, "Chorus"), (18, "Verse 2"), (23, "Chorus")]

instance entriesLeDecidable :
    DecidableRel fun (a b : ℕ × String) => a.1 ≤ b.1 :=
  fun a b => Nat.decLe a.1 b.1

instance entriesLeTotal : IsTotal (ℕ × String) fun a b => a.1 ≤ b.1 :=
  ⟨fun a b => Nat.le_total a.1 b.1⟩

instance entriesLeTrans : IsTrans (ℕ × String) fun a b => a.1 ≤ b.1 :=
  ⟨fun _ _ _ h1 h2 => le_trans h1 h2⟩

/-- Python's `sorted(section_map.items())`: the entries in ascending order
of line index. -/
def sortEntries (entries : List (ℕ × String)) : List (ℕ × String) :=
  List.insertionSort (fun a b => a.1 ≤ b.1) entries

/-- transcribe_v2.py lines 177-181: for each mapped line (in sorted order)
with at least one WordRecord, emit a Section anchored 0.5s before the
line's first word. -/
def buildSections (entries : List (ℕ × String)) (words : List WordRecord) :
    List LyricSection :=
  (sortEntries entries).filterMap fun e =>
    match words.filter fun w => w.line == e.1 with
    | [] => none
    | w :: _ => some ⟨round2 (w.time - 0.5), e.2⟩

/-- The Section emitted for an entry whose line is non-empty. -/
def secOf (words : List WordRecord) (e : ℕ × String) : LyricSection :=
  ⟨round2 (((words.filter fun w => w.line == e.1).headD dfltRec).time - 0.5), e.2⟩

/-- The grouping keys of the lines mapping: distinct line indices in
first-appearance order. -/
def keysInOrder (l : List ℕ) : List ℕ :=
  l.foldl (fun acc k => if k ∈ acc then acc else acc ++ [k]) []

/-- The lines mapping as the spec describes it (§4.5): group the WordRecords
by `line` and space-join their `word` fields in sequence order. -/
def specLineTexts (words : List WordRecord) : List (ℕ × String) :=
  (keysInOrder (words.map WordRecord.line)).map fun k =>
    (k, String.intercalate " "
      ((words.filter fun w => w.line == k).map WordRecord.word))

/-- `specLineTexts` through the (word, line) projection. -/
def specOfPairs (ps : List (String × ℕ)) : List (ℕ × String) :=
  (keysInOrder (ps.map Prod.snd)).map fun k =>
    (k, String.intercalate " " ((ps.filter fun p => p.2 == k).map Prod.fst))

/-- The hardcoded ground-truth lyrics of transcribe_v2.py lines 30-76. -/
def LYRICS_LINES : List String := [
  "How'd it all fall apart?",
  "You were right here before, in my arms",
  "Now you're invisible",
  "But the heartbreak's physical",
  "Got a place, moved away",
  "Somewhere with a different code, different state",
  "Still feels miserable",
  "God, it's so chemical",
  "All that I know",
  "Is I can't let you go",
  "It's been two years and you're still not gone",
  "Doesn't make sense that I can't move on",
  "Yeah, I try, I try, I try, I try",
  "But this love never dies",
  "Two years since you've been in my bed",
  "Even had a funeral for you in my head",
  "Yeah, I try, I try, I try, I try",
  "But this love never dies",
  "Another night, another vice",
  "Even try with someone new, someone nice",
  "I'll always hate the fact that you",
  "Ruined everybody after you",
  "I'm always coming back to you",
  "It's been two years and you're still not gone",
  "Doesn't make sense that I can't move on",
  "Yeah, I try, I try, I try, I try",
  "But this love never dies",
  "Two years since you've been in my bed",
  "Even had a funeral for you in my head",
  "Yeah, I try, I try, I try, I try",
  "But this love never dies",
  "It's been two years and you're still not gone",
  "Doesn't make sense that I can't move on",
  "Yeah, I try, I try, I try, I try",
  "But this love never dies",
  "Two years since you've been in my bed",
  "Even had a funeral for you in my head",
  "Yeah, I try, I try, I try, I try",
  "But this love never dies"]

/-- transcribe_v2.py line 126: the guided pipeline's lines mapping,
`{str(i): line for i, line in enumerate(LYRICS_LINES)}` (keys kept as the
integers they stringify). -/
def line_textsV2 : List (ℕ × String) := LYRICS_LINES.enum

theorem fixPair_of_zero {prev cur : WordRecord} (h : (fixPair prev cur).2 = 0) :
    (fixPair prev cur).1 = cur ∧ adjOk prev cur := by
  unfold fixPair at h ⊢
  unfold adjOk
  by_cases hl : cur.line = prev.line
  · rw [if_pos hl] at h ⊢
    rw [if_pos hl]
    by_cases hc : cur.time < prev.time ∨ 4.0 < cur.time - prev.time
    · rw [if_pos hc] at h
      exact absurd h one_ne_zero
    · rw [if_neg hc]
      push_neg at hc
      exact ⟨rfl, hc⟩
  · rw [if_neg hl] at h ⊢
    rw [if_neg hl]
    by_cases hc : cur.time < prev.time
    · rw [if_pos hc] at h
      exact absurd h one_ne_zero
    · rw [if_neg hc] at h ⊢
      by_cases hg : 10.0 < cur.time - prev.time
      · rw [if_pos hg] at h
        exact absurd h one_ne_zero
      · rw [if_neg hg]
        exact ⟨rfl, not_lt.mp hc, not_lt.mp hg⟩

theorem fixGo_of_zero (prev : WordRecord) (ws : List WordRecord)
    (h : (fixGo prev ws).2 = 0) :
    (fixGo prev ws).1 = ws ∧ List.Chain adjOk prev ws := by
  induction ws generalizing prev with
  | nil => exact ⟨rfl, List.Chain.nil⟩
  | cons cur rest ih =>
    have hsum : (fixPair prev cur).2 + (fixGo (fixPair prev cur).1 rest).2 = 0 := h
    have hp : (fixPair prev cur).2 = 0 := by omega
    have hg : (fixGo (fixPair prev cur).1 rest).2 = 0 := by omega
    obtain ⟨hpc, hok⟩ := fixPair_of_zero hp
    rw [hpc] at hg
    obtain ⟨hr, hc⟩ := ih cur hg
    constructor
    · show (fixPair prev cur).1 :: (fixGo (fixPair prev cur).1 rest).1 = cur :: rest
      rw [hpc, hr]
    · exact List.Chain.cons hok hc

/-- C1: after the Timestamp Repairer converges (a full pass applies zero
fixes), every adjacent pair of records satisfies the monotonicity and gap
bounds: on the same line `time[i-1] ≤ time[i]` and the gap is at most 4.0
(a gap of exactly 4.0 is allowed); across lines `time[i-1] ≤ time[i]` and
the gap is at most 10.0. -/
theorem converged_adjacent_bounds (ws : List WordRecord)
    (h : (fix_timestamps ws).2 = 0) : List.Chain' adjOk ws := by
  cases ws with
  | nil => exact List.chain'_nil
  | cons w rest =>
    have hg : (fixGo w rest).2 = 0 := h
    show List.Chain adjOk w rest
    exact (fixGo_of_zero w rest hg).2

theorem converged_adjacent_bounds_witness :
    (fix_timestamps c1List).2 = 0 ∧ List.Chain' adjOk c1List := by
  have h : (fix_timestamps c1List).2 = 0 := by
    norm_num [c1List, fix_timestamps, fixGo, fixPair]
  exact ⟨h, converged_adjacent_bounds c1List h⟩

/-- C7: the Timestamp Repairer is idempotent at its fixed point: if a
full pass applies zero fixes it left every record unchanged, and running the
pass again on its result applies zero fixes and changes nothing. -/
theorem repair_fixed_point (ws : List WordRecord)
    (h : (fix_timestamps ws).2 = 0) :
    (fix_timestamps ws).1 = ws ∧
      fix_timestamps ((fix_timestamps ws).1) = (ws, 0) := by
  have h1 : (fix_timestamps ws).1 = ws := by
    cases ws with
    | nil => rfl
    | cons w rest =>
      have hg : (fixGo w rest).2 = 0 := h
      show w :: (fixGo w rest).1 = w :: rest
      rw [(fixGo_of_zero w rest hg).1]
  refine ⟨h1, ?_⟩
  rw [h1]
  calc fix_timestamps ws = ((fix_timestamps ws).1, (fix_timestamps ws).2) := rfl
    _ = (ws, 0) := by rw [h1, h]

theorem repair_fixed_point_witness :
    (fix_timestamps c7List).2 = 0 ∧
      ((fix_timestamps c7List).1 = c7List ∧
        fix_timestamps ((fix_timestamps c7List).1) = (c7List, 0)) := by
  have h : (fix_timestamps c7List).2 = 0 := by
    norm_num [c7List, fix_timestamps, fixGo, fixPair]
  exact ⟨h, repair_fixed_point c7List h⟩

theorem fixPair_proj (prev cur : WordRecord) :
    proj (fixPair prev cur).1 = proj cur := by
  unfold fixPair
  repeat' split
  all_goals rfl

theorem fixGo_proj (prev : WordRecord) (ws : List WordRecord) :
    (fixGo prev ws).1.map proj = ws.map proj := by
  induction ws generalizing prev with
  | nil => rfl
  | cons cur rest ih =>
    show proj (fixPair prev cur).1 :: ((fixGo (fixPair prev cur).1 rest).1.map proj)
      = proj cur :: rest.map proj
    rw [fixPair_proj, ih]

/-- C10: a single repair pass modifies only the `time` field of records
at positions `i ≥ 1`: the length, every record's `word` and `line` fields,
and the entire record at position 0 are unchanged. -/
theorem fix_timestamps_frame (ws : List WordRecord) :
    (fix_timestamps ws).1.length = ws.length ∧
      (fix_timestamps ws).1.map WordRecord.word = ws.map WordRecord.word ∧
      (fix_timestamps ws).1.map WordRecord.line = ws.map WordRecord.line ∧
      (fix_timestamps ws).1.head? = ws.head? := by
  have hp : (fix_timestamps ws).1.map proj = ws.map proj := by
    cases ws with
    | nil => rfl
    | cons w rest =>
      show proj w :: ((fixGo w rest).1.map proj) = proj w :: rest.map proj
      rw [fixGo_proj]
  refine ⟨?_, ?_, ?_, ?_⟩
  · have := congrArg List.length hp
    simpa using this
  · have := congrArg (List.map Prod.fst) hp
    simpa [List.map_map] using this
  · have := congrArg (List.map Prod.snd) hp
    simpa [List.map_map] using this
  · cases ws with
    | nil => rfl
    | cons w rest => rfl

theorem round2_zero : round2 0 = 0 := by
  norm_num [round2]

theorem round2_round2 (q : ℚ) : round2 (round2 q) = round2 q := by
  unfold round2
  have h1 : (⌊q * 100 + 1/2⌋ : ℚ) / 100 * 100 = ((⌊q * 100 + 1/2⌋ : ℤ) : ℚ) := by
    field_simp
  rw [h1, Int.floor_int_add]
  norm_num

theorem extractAligned_round2 (raw : List RawWord) :
    ∀ a ∈ extractAligned raw, round2 a.start = a.start := by
  intro a ha
  unfold extractAligned at ha
  simp only [List.mem_filterMap] at ha
  obtain ⟨o, _, ho⟩ := ha
  by_cases h : pyStrip o.word = ""
  · simp [h] at ho
  · simp only [h, if_neg, if_false] at ho
    have ha2 : (⟨pyStrip o.word, round2 o.start, round2 o.stop⟩ : AlignedWord) = a :=
      Option.some.inj ho
    rw [← ha2]
    exact round2_round2 _

theorem getD_map_pair {α β : Type} (f : α → β) :
    ∀ (l : List α) (i : ℕ) (d : α), (l.map f).getD i (f d) = f (l.getD i d)
  | [], _, _ => rfl
  | _ :: _, 0, _ => rfl
  | _ :: l, i + 1, d => getD_map_pair f l i d

theorem mapGo_proj (aligned : List AlignedWord) (prev : Option ℚ)
    (ps : List (String × ℕ)) : (mapGo aligned prev ps).map proj = ps := by
  induction ps generalizing aligned prev with
  | nil => cases aligned <;> rfl
  | cons p rest ih =>
    obtain ⟨w, ln⟩ := p
    cases aligned with
    | nil => simpa [mapGo, proj] using ih [] _
    | cons a as => simpa [mapGo, proj] using ih as _

theorem mapGo_length (aligned : List AlignedWord) (prev : Option ℚ)
    (ps : List (String × ℕ)) : (mapGo aligned prev ps).length = ps.length := by
  have := congrArg List.length (mapGo_proj aligned prev ps)
  simpa using this

/-- C3: for every ground-truth lyric set whose lines split into `W` total
expected words, the Word Mapper returns exactly `W` WordRecords, whatever the
sequence of aligned observations (fewer than, exactly, or more than `W`). -/
theorem mapper_word_count (lines : List String) (aligned : List AlignedWord) :
    (mapWords lines aligned).length = (lines.map fun l => (pySplit l).length).sum := by
  unfold mapWords
  rw [mapGo_length]
  unfold expandLines
  rw [List.length_flatten, List.map_map]
  have h : ((lines.enum.map fun p => ((pySplit p.2).map fun w => (w, p.1)).length))
      = lines.enum.map fun p => (pySplit p.2).length := by
    simp
  rw [show (List.length ∘ fun p : ℕ × String =>
      (pySplit p.2).map fun w => (w, p.1)) = fun p : ℕ × String => (pySplit p.2).length by
    funext p
    simp]
  rw [show (fun p : ℕ × String => (pySplit p.2).length)
      = (fun l => (pySplit l).length) ∘ Prod.snd from rfl]
  rw [← List.map_map, List.enum_map_snd]

theorem mapGo_time_aligned (aligned : List AlignedWord) (prev : Option ℚ)
    (ps : List (String × ℕ)) (i : ℕ) (hi : i < ps.length)
    (ha : i < aligned.length) :
    ((mapGo aligned prev ps).getD i dfltRec).time
      = (aligned.getD i dfltAligned).start := by
  induction ps generalizing aligned prev i with
  | nil => simp at hi
  | cons p rest ih =>
    obtain ⟨w, ln⟩ := p
    cases aligned with
    | nil => simp at ha
    | cons a as =>
      cases i with
      | zero => rfl
      | succ j =>
        show ((mapGo as (some a.start) rest).getD j dfltRec).time
          = (as.getD j dfltAligned).start
        exact ih as (some a.start) j (by simpa using hi) (by simpa using ha)

theorem mapGo_time_synth (aligned : List AlignedWord) (prev : Option ℚ)
    (ps : List (String × ℕ)) (i : ℕ) (hi : i < ps.length)
    (ha : aligned.length ≤ i) (h0 : 0 < i) :
    ((mapGo aligned prev ps).getD i dfltRec).time
      = round2 (((mapGo aligned prev ps).getD (i - 1) dfltRec).time + 0.3) := by
  induction ps generalizing aligned prev i with
  | nil => simp at hi
  | cons p rest ih =>
    obtain ⟨w, ln⟩ := p
    obtain ⟨j, rfl⟩ : ∃ j, i = j + 1 := ⟨i - 1, (Nat.succ_pred_eq_of_pos h0).symm⟩
    cases aligned with
    | cons a as =>
      cases j with
      | zero =>
        have hnil : as = [] := by
          have : as.length = 0 := by simpa using ha
          exact List.eq_nil_of_length_eq_zero this
        subst hnil
        cases rest with
        | nil => simp at hi
        | cons q qs =>
          obtain ⟨w2, ln2⟩ := q
          rfl
      | succ k =>
        show ((mapGo as (some a.start) rest).getD (k + 1) dfltRec).time
          = round2 (((mapGo as (some a.start) rest).getD k dfltRec).time + 0.3)
        have := ih as (some a.start) (k + 1) (by simpa using hi)
          (by simpa using ha) (Nat.succ_pos k)
        simpa using this
    | nil =>
      cases j with
      | zero =>
        cases rest with
        | nil => simp at hi
        | cons q qs =>
          obtain ⟨w2, ln2⟩ := q
          rfl
      | succ k =>
        show ((mapGo [] (some (round2 (match prev with
            | some p => p + 0.3 | none => 0))) rest).getD (k + 1) dfltRec).time
          = round2 (((mapGo [] (some (round2 (match prev with
            | some p => p + 0.3 | none => 0))) rest).getD k dfltRec).time + 0.3)
        have := ih [] (some (round2 (match prev with
            | some p => p + 0.3 | none => 0))) (k + 1) (by simpa using hi)
          (by simp) (Nat.succ_pos k)
        simpa using this

/-- C5: for the i-th expected word, the Word Mapper emits the expected
word's text and line; if the i-th aligned observation exists the time is its
start rounded to 2 decimals, if the observations have run out the time is
the previous record's time + 0.3 rounded to 2 decimals, and the very first
expected word with no observation gets time 0. -/
theorem mapper_ith_record (lines : List String) (raw : List RawWord)
    (i : ℕ) (hi : i < (expandLines lines).length) :
    (((mapWords lines (extractAligned raw)).getD i dfltRec).word
        = ((expandLines lines).getD i ("", 0)).1 ∧
      ((mapWords lines (extractAligned raw)).getD i dfltRec).line
        = ((expandLines lines).getD i ("", 0)).2) ∧
    (∀ _ : i < (extractAligned raw).length,
      ((mapWords lines (extractAligned raw)).getD i dfltRec).time
        = round2 ((extractAligned raw).getD i dfltAligned).start) ∧
    ((extractAligned raw).length ≤ i → 0 < i →
      ((mapWords lines (extractAligned raw)).getD i dfltRec).time
        = round2 (((mapWords lines (extractAligned raw)).getD (i - 1) dfltRec).time
            + 0.3)) ∧
    ((extractAligned raw).length ≤ i → i = 0 →
      ((mapWords lines (extractAligned raw)).getD i dfltRec).time = 0) := by
  refine ⟨?_, ?_, ?_, ?_⟩
  · have hp := mapGo_proj (extractAligned raw) none (expandLines lines)
    have hw : proj ((mapWords lines (extractAligned raw)).getD i dfltRec)
        = (expandLines lines).getD i ("", 0) := by
      have := getD_map_pair proj (mapGo (extractAligned raw) none (expandLines lines))
        i dfltRec
      rw [hp] at this
      exact this.symm
    exact ⟨congrArg Prod.fst hw, congrArg Prod.snd hw⟩
  · intro ha
    have h1 := mapGo_time_aligned (extractAligned raw) none (expandLines lines) i hi ha
    have h2 : round2 ((extractAligned raw).getD i dfltAligned).start
        = ((extractAligned raw).getD i dfltAligned).start := by
      have hm : (extractAligned raw).getD i dfltAligned ∈ extractAligned raw := by
        rw [List.getD_eq_getElem _ _ ha]
        exact List.getElem_mem ha
      exact extractAligned_round2 raw _ hm
    rw [h2]
    exact h1
  · intro ha h0
    exact mapGo_time_synth (extractAligned raw) none (expandLines lines) i hi ha h0
  · intro ha h0
    subst h0
    have hnil : extractAligned raw = [] := by
      simpa using List.eq_nil_of_length_eq_zero (Nat.le_zero.mp ha)
    rw [mapWords, hnil]
    cases hce : expandLines lines with
    | nil => rw [hce] at hi; simp at hi
    | cons p rest =>
      obtain ⟨w, ln⟩ := p
      show round2 0 = 0
      exact round2_zero

theorem mapper_ith_record_witness :
    (((mapWords ["ab cd"] (extractAligned [⟨"ab", 1, 2⟩])).getD 1 dfltRec).time
      = round2 (((mapWords ["ab cd"]
          (extractAligned [⟨"ab", 1, 2⟩])).getD 0 dfltRec).time + 0.3)) ∧
    1 < (expandLines ["ab cd"]).length := by
  have h := mapper_ith_record ["ab cd"] [⟨"ab", 1, 2⟩] 1 (by decide)
  exact ⟨h.2.2.1 (by decide) (by decide), by decide⟩

theorem exExpand : expandLines exLines
    = [("hello", 0), ("world", 0), ("goodbye", 1), ("now", 1)] := by decide

theorem exExtract : extractAligned exRaw =
    [⟨"hello", 0, 0.4⟩, ⟨"world", 5.2, 5.5⟩, ⟨"goodbye", 5.6, 6⟩, ⟨"now", 6.1, 6.4⟩] := by
  have h1 : pyStrip "hello" = "hello" := by decide
  have h2 : pyStrip "world" = "world" := by decide
  have h3 : pyStrip "goodbye" = "goodbye" := by decide
  have h4 : pyStrip "now" = "now" := by decide
  have n1 : ¬("hello" = "") := by decide
  have n2 : ¬("world" = "") := by decide
  have n3 : ¬("goodbye" = "") := by decide
  have n4 : ¬("now" = "") := by decide
  norm_num [extractAligned, exRaw, h1, h2, h3, h4, n1, n2, n3, n4, round2,
    List.filterMap_cons]

theorem exMapped : mapWords exLines (extractAligned exRaw) =
    [⟨"hello", 0, 0⟩, ⟨"world", 5.2, 0⟩, ⟨"goodbye", 5.6, 1⟩, ⟨"now", 6.1, 1⟩] := by
  show mapGo (extractAligned exRaw) none (expandLines exLines) = _
  rw [exExtract, exExpand]
  simp [mapGo]

theorem exFixed : fix_timestamps
    [⟨"hello", 0, 0⟩, ⟨"world", 5.2, 0⟩, ⟨"goodbye", 5.6, 1⟩, ⟨"now", 6.1, 1⟩]
    = (exActual, 1) := by
  norm_num [fix_timestamps, fixGo, fixPair, round2, exActual]

theorem exConverged : fix_timestamps exActual = (exActual, 0) := by
  norm_num [fix_timestamps, fixGo, fixPair, round2, exActual]

theorem repairGo_succ (k : ℕ) (ws : List WordRecord) :
    repairGo (k + 1) ws = if (fix_timestamps ws).2 = 0 then ((fix_timestamps ws).1, 0)
      else ((repairGo k (fix_timestamps ws).1).1,
        (fix_timestamps ws).2 + (repairGo k (fix_timestamps ws).1).2) := rfl

theorem guided_ex_eq : guidedWords exLines exRaw = (exActual, 1) := by
  show repairGo 5 (mapWords exLines (extractAligned exRaw)) = (exActual, 1)
  rw [exMapped, show (5 : ℕ) = 4 + 1 from rfl, repairGo_succ, exFixed]
  rw [if_neg (by norm_num)]
  rw [show (4 : ℕ) = 3 + 1 from rfl, repairGo_succ]
  show ((if (fix_timestamps exActual).2 = 0 then _ else _ : List WordRecord × ℕ).1, _)
    = (exActual, 1)
  rw [exConverged]
  simp

/-- C2 counterexample: on the spec's end-to-end example the pipeline does
not produce the claimed final sequence (the claimed "world" time 0.68 is
wrong: the code yields 0.28). -/
theorem end_to_end_example_refuted :
    (guidedWords exLines exRaw).1 ≠ exClaimed := by
  rw [guided_ex_eq]
  norm_num [exActual, exClaimed]

/-- C2 amended: on ground-truth lines `["hello world", "goodbye now"]`
with the example observations, the guided pipeline yields final words
`[{hello,0.00,0},{world,0.28,0},{goodbye,5.60,1},{now,6.10,1}]` — the
repairer corrects "world" to the previous record's time 0.00 + 0.28 = 0.28
(not the previous word's end 0.40 + 0.28 = 0.68) — with exactly 1 fix
applied, and the following pass applies zero fixes (convergence). -/
theorem end_to_end_example_actual :
    guidedWords exLines exRaw = (exActual, 1) ∧
      fix_timestamps exActual = (exActual, 0) :=
  ⟨guided_ex_eq, exConverged⟩

/-- C4: one iteration of the Line Segmenter increments the line counter
iff the observation's trimmed text is non-empty, a previously appended word
exists, the incoming segment id differs from `prev_seg` (which by
construction is the previous appended word's segment id: it is updated
exactly on append), and the gap between the rounded start and the previous
appended word's effective end (its recorded `_end`, else `time + 0.3`)
strictly exceeds 0.8 seconds; otherwise the counter is unchanged, and a
blank observation leaves the whole state unchanged. -/
theorem segmenter_line_increment (st : SegState) (segId : ℤ) (w : RawWord) :
    ((segStep st segId w).lineIdx = st.lineIdx + 1 ↔
      (pyStrip w.word ≠ "" ∧ ∃ prev, st.words.getLast? = some prev ∧
        segId ≠ st.prevSeg ∧ 0.8 < round2 w.start - effEnd prev)) ∧
    ((segStep st segId w).lineIdx = st.lineIdx + 1 ∨
      (segStep st segId w).lineIdx = st.lineIdx) ∧
    (pyStrip w.word = "" → segStep st segId w = st) := by
  unfold segStep
  by_cases he : pyStrip w.word = ""
  · rw [if_pos he]
    simp [he]
  · rw [if_neg he]
    cases hl : st.words.getLast? with
    | none => simp [he, hl]
    | some prev =>
      by_cases hs : segId ≠ st.prevSeg
      · by_cases hg : 0.8 < round2 w.start - effEnd prev
        · simp [he, hl, hs, hg]
        · simp [he, hl, hs, hg]
      · simp [he, hl, hs]

theorem segStep_blank {st : SegState} {segId : ℤ} {w : RawWord}
    (h : pyStrip w.word = "") : segStep st segId w = st := by
  unfold segStep
  rw [if_pos h]

theorem segFold_blank (segId : ℤ) (ws : List RawWord) (st : SegState)
    (h : ∀ w ∈ ws, pyStrip w.word = "") :
    ws.foldl (fun st2 w => segStep st2 segId w) st = st := by
  induction ws generalizing st with
  | nil => rfl
  | cons w rest ih =>
    rw [List.foldl_cons, segStep_blank (h w (List.mem_cons_self w rest))]
    exact ih st fun x hx => h x (List.mem_cons_of_mem w hx)

theorem segRun_blank (segs : List Segment)
    (h : ∀ s ∈ segs, ∀ w ∈ s.words, pyStrip w.word = "") :
    segRun segs = initSegState := by
  unfold segRun
  induction segs with
  | nil => rfl
  | cons s rest ih =>
    rw [List.foldl_cons, segFold_blank s.id s.words initSegState
      (h s (List.mem_cons_self s rest))]
    exact ih fun x hx => h x (List.mem_cons_of_mem s hx)

/-- C8: when the alignment collaborator returns zero (non-blank) words,
the free-transcription pipeline propagates an empty WordRecord sequence, and
the Output Assembler still produces a well-formed document with empty words,
empty lines mapping, `totalWords = 0` and `totalLines = 0`. -/
theorem empty_alignment (segs : List Segment)
    (h : ∀ s ∈ segs, ∀ w ∈ s.words, pyStrip w.word = "") :
    segment_words segs = [] ∧
      assemble_free (segment_words segs) = ⟨[], [], none, 0, 0⟩ := by
  have h1 : segment_words segs = [] := by
    unfold segment_words
    rw [segRun_blank segs h]
    rfl
  refine ⟨h1, ?_⟩
  rw [h1]
  rfl

theorem empty_alignment_witness :
    segment_words [⟨0, [⟨" ", 1, 2⟩]⟩] = [] ∧
      assemble_free (segment_words [⟨0, [⟨" ", 1, 2⟩]⟩]) = ⟨[], [], none, 0, 0⟩ :=
  empty_alignment [⟨0, [⟨" ", 1, 2⟩]⟩] (by decide)

theorem sectionsFilterMap (words : List WordRecord) (l : List (ℕ × String)) :
    (l.filterMap fun e =>
      match words.filter fun w => w.line == e.1 with
      | [] => none
      | w :: _ => some ⟨round2 (w.time - 0.5), e.2⟩) =
    (l.filter fun e => !(words.filter fun w => w.line == e.1).isEmpty).map
      (secOf words) := by
  induction l with
  | nil => rfl
  | cons e rest ih =>
    rw [List.filterMap_cons, List.filter_cons]
    cases hf : words.filter fun w => w.line == e.1 with
    | nil => simp [hf, ih]
    | cons w ws => simp [hf, ih, secOf]

/-- C6: every section-map entry `(L, label)` whose line `L` has at least
one WordRecord (first word time `T`) yields an emitted Section with time
`round2 (T - 0.5)` and that label; the output is exactly the non-empty
entries of the sorted map, each anchored that way (so a mapped line with
zero WordRecords emits nothing); and the emitted sections follow their
source line indices in ascending order. -/
theorem sections_spec (entries : List (ℕ × String)) (words : List WordRecord) :
    (∀ e ∈ entries, ∀ w rest, (words.filter fun x => x.line == e.1) = w :: rest →
      (⟨round2 (w.time - 0.5), e.2⟩ : LyricSection) ∈ buildSections entries words) ∧
    buildSections entries words =
      ((sortEntries entries).filter fun e =>
        !(words.filter fun x => x.line == e.1).isEmpty).map (secOf words) ∧
    List.Pairwise (fun a b => a.1 ≤ b.1)
      ((sortEntries entries).filter fun e =>
        !(words.filter fun x => x.line == e.1).isEmpty) := by
  refine ⟨?_, sectionsFilterMap words (sortEntries entries), ?_⟩
  · intro e he w rest hf
    have hes : e ∈ sortEntries entries := by
      unfold sortEntries
      exact ((List.perm_insertionSort _ entries).mem_iff).mpr he
    unfold buildSections
    rw [List.mem_filterMap]
    exact ⟨e, hes, by rw [hf]⟩
  · exact List.Pairwise.filter _ (List.sorted_insertionSort _ entries)

theorem keysInOrder_append (l : List ℕ) (k : ℕ) :
    keysInOrder (l ++ [k]) =
      if k ∈ keysInOrder l then keysInOrder l else keysInOrder l ++ [k] := by
  unfold keysInOrder
  rw [List.foldl_append]
  rfl

theorem keysInOrder_go_nodup (l : List ℕ) :
    ∀ acc : List ℕ, acc.Nodup →
      (l.foldl (fun acc k => if k ∈ acc then acc else acc ++ [k]) acc).Nodup := by
  induction l with
  | nil => exact fun _ h => h
  | cons x xs ih =>
    intro acc h
    rw [List.foldl_cons]
    by_cases hx : x ∈ acc
    · rw [if_pos hx]
      exact ih acc h
    · rw [if_neg hx]
      refine ih _ ?_
      simp [List.nodup_append, h, hx]

theorem keysInOrder_nodup (l : List ℕ) : (keysInOrder l).Nodup :=
  keysInOrder_go_nodup l [] List.nodup_nil

theorem keysInOrder_go_mem (l : List ℕ) (k : ℕ) :
    ∀ acc, k ∈ l.foldl (fun acc k => if k ∈ acc then acc else acc ++ [k]) acc
      ↔ k ∈ acc ∨ k ∈ l := by
  induction l with
  | nil => simp
  | cons x xs ih =>
    intro acc
    rw [List.foldl_cons]
    by_cases hx : x ∈ acc
    · rw [if_pos hx, ih acc]
      constructor
      · tauto
      · rintro (h | h)
        · tauto
        · rcases List.mem_cons.mp h with rfl | h2
          · tauto
          · tauto
    · rw [if_neg hx, ih _]
      simp only [List.mem_append, List.mem_singleton, List.mem_cons]
      tauto

theorem keysInOrder_mem (l : List ℕ) (k : ℕ) : k ∈ keysInOrder l ↔ k ∈ l := by
  unfold keysInOrder
  rw [keysInOrder_go_mem]
  simp

theorem addWord_map (f : ℕ → List String) (w : String) (ln : ℕ) :
    ∀ ks : List ℕ, ks.Nodup →
      addWord (ks.map fun k => (k, f k)) ln w =
        (if ln ∈ ks then ks.map fun k => (k, if k = ln then f k ++ [w] else f k)
          else (ks.map fun k => (k, f k)) ++ [(ln, [w])]) := by
  intro ks
  induction ks with
  | nil => intro _; simp [addWord]
  | cons k ks ih =>
    intro hnd
    have hknotin : k ∉ ks := (List.nodup_cons.mp hnd).1
    rw [List.map_cons]
    show (if k = ln then (k, f k ++ [w]) :: ks.map (fun k => (k, f k))
      else (k, f k) :: addWord (ks.map fun k => (k, f k)) ln w) = _
    by_cases hk : k = ln
    · rw [if_pos hk, if_pos (by rw [← hk]; exact List.mem_cons_self k ks)]
      rw [List.map_cons, if_pos hk]
      congr 1
      refine (List.map_congr_left fun a ha => ?_).symm
      rw [if_neg (fun h : a = ln => hknotin (by rw [hk, ← h]; exact ha))]
    · rw [if_neg hk, ih (List.nodup_cons.mp hnd).2]
      by_cases hln : ln ∈ ks
      · rw [if_pos hln, if_pos (List.mem_cons_of_mem k hln), List.map_cons, if_neg hk]
      · have hnotin : ln ∉ k :: ks := by
          intro h
          rcases List.mem_cons.mp h with h2 | h2
          · exact hk h2.symm
          · exact hln h2
        rw [if_neg hln, if_neg hnotin]
        rfl

/-- `groupLines` computes the spec's grouping: the distinct line indices in
first-appearance order, each with its words' texts in sequence order. -/
theorem groupLines_spec (ws : List WordRecord) :
    groupLines ws = (keysInOrder (ws.map WordRecord.line)).map fun k =>
      (k, (ws.filter fun w => w.line == k).map WordRecord.word) := by
  induction ws using List.reverseRecOn with
  | nil => rfl
  | append_singleton ws r ih =>
    have h1 : groupLines (ws ++ [r]) = addWord (groupLines ws) r.line r.word := by
      unfold groupLines
      rw [List.foldl_append]
      rfl
    rw [h1, ih, addWord_map _ _ _ _ (keysInOrder_nodup _), List.map_append,
      List.map_singleton, keysInOrder_append]
    by_cases hmem : r.line ∈ keysInOrder (ws.map WordRecord.line)
    · rw [if_pos hmem, if_pos hmem]
      refine List.map_congr_left fun k hk => ?_
      rw [List.filter_append]
      by_cases hkr : k = r.line
      · rw [if_pos hkr]
        have h2 : ([r].filter fun w => w.line == k) = [r] := by
          simp [List.filter_cons, hkr]
        rw [h2, List.map_append]
        rfl
      · rw [if_neg hkr]
        have h2 : ([r].filter fun w => w.line == k) = [] := by
          simp only [List.filter_cons, List.filter_nil, beq_iff_eq]
          rw [if_neg (fun h : r.line = k => hkr h.symm)]
        rw [h2, List.append_nil]
    · rw [if_neg hmem, if_neg hmem, List.map_append, List.map_singleton]
      congr 1
      · refine List.map_congr_left fun k hk => ?_
        have hk2 : k ≠ r.line := fun h => hmem (h ▸ hk)
        rw [List.filter_append]
        have h2 : ([r].filter fun w => w.line == k) = [] := by
          simp only [List.filter_cons, List.filter_nil, beq_iff_eq]
          rw [if_neg (fun h : r.line = k => hk2 h.symm)]
        rw [h2, List.append_nil]
      · have hnin : r.line ∉ ws.map WordRecord.line :=
          fun h => hmem ((keysInOrder_mem _ _).mpr h)
        have hfil : (ws.filter fun w => w.line == r.line) = [] := by
          rw [List.filter_eq_nil_iff]
          intro w hw
          simp only [beq_iff_eq]
          exact fun h => hnin (h ▸ List.mem_map_of_mem WordRecord.line hw)
        rw [List.filter_append, hfil, List.nil_append]
        simp [List.filter_cons]

theorem line_texts_free_spec (words : List WordRecord) :
    line_texts_free words = specLineTexts words := by
  unfold line_texts_free specLineTexts
  rw [groupLines_spec, List.map_map]
  rfl

theorem specLineTexts_proj (words : List WordRecord) :
    specLineTexts words = specOfPairs (words.map proj) := by
  unfold specLineTexts specOfPairs
  have h1 : (words.map proj).map Prod.snd = words.map WordRecord.line := by
    rw [List.map_map]
    rfl
  rw [h1]
  refine List.map_congr_left fun k hk => ?_
  rw [List.filter_map, List.map_map]
  rfl

theorem fix_timestamps_proj (ws : List WordRecord) :
    (fix_timestamps ws).1.map proj = ws.map proj := by
  cases ws with
  | nil => rfl
  | cons w rest =>
    show proj w :: ((fixGo w rest).1.map proj) = proj w :: rest.map proj
    rw [fixGo_proj]

theorem repairGo_proj (k : ℕ) (ws : List WordRecord) :
    (repairGo k ws).1.map proj = ws.map proj := by
  induction k generalizing ws with
  | zero => rfl
  | succ n ih =>
    rw [repairGo_succ]
    by_cases h : (fix_timestamps ws).2 = 0
    · rw [if_pos h]
      exact fix_timestamps_proj ws
    · rw [if_neg h]
      show (repairGo n (fix_timestamps ws).1).1.map proj = ws.map proj
      rw [ih, fix_timestamps_proj]

set_option maxRecDepth 100000 in
theorem specOfPairs_lyrics : specOfPairs (expandLines LYRICS_LINES)
    = LYRICS_LINES.enum := by decide

/-- C9: in both pipelines the lines mapping of the output equals the
mapping obtained by grouping the final WordRecords by line index and
space-joining their `word` fields in sequence order: the free pipeline's
`line_texts` is exactly that grouping, and the guided pipeline's mapping
(the ground-truth lines used directly) equals the grouping of its final
post-repair words, for every aligned observation sequence. -/
theorem lines_mapping_grouping :
    (∀ words : List WordRecord, line_texts_free words = specLineTexts words) ∧
    ∀ aligned : List AlignedWord,
      line_textsV2 = specLineTexts (repair (mapWords LYRICS_LINES aligned)).1 := by
  refine ⟨line_texts_free_spec, fun aligned => ?_⟩
  rw [specLineTexts_proj]
  unfold repair
  rw [repairGo_proj]
  unfold mapWords
  rw [mapGo_proj]
  unfold line_textsV2
  exact specOfPairs_lyrics.symm

end Transcribe
